import Mathlib

/-!
Verification of the gap-filling and linear-interpolation core of the
QGIS processing script interpolate_missing_z_on_line.py.

The core operates on a sequence of Z values (with a caller-chosen sentinel
marking missing entries) and a same-length sequence of cumulative along-line
distances.  We embed the three pure pieces of the script:

* interpolate_z            — the two-point linear interpolation helper;
* idx_first_last_valid_items / fill_list_ends — the end-filling stage;
* the interior-interpolation loop of processAlgorithm (lines 450-477),
  embedded here as scan_forward / interp_go / interpolate.

Numbers are modelled by ℚ (the script works on Python floats; the values in
all the statements below stay exact).  Python behaviours with no return value
are modelled explicitly: fill_list_ends returning None becomes Option.none,
and the exceptions the interior loop can raise (ZeroDivisionError on a
zero-length anchor gap, IndexError when a scan runs past the end, NameError
when an anchor variable was never assigned) become the error cases of an
Except.  The error type also carries a degenerateSegment case so that the
specification's proposed DegenerateSegment report can be stated; the code
itself never produces it, which is proved below.
-/

namespace InterpolateMissingZ

/-- Failure modes of the interior interpolation loop.  The first three model
the Python exceptions the source can actually raise (ZeroDivisionError,
IndexError, NameError).  degenerateSegment is the distinct report that the
specification asks for on coincident anchor distances; it exists in the type
only so that the corresponding claim can be stated, and the code is proved
never to produce it. -/
inductive InterpError where
  | zeroDivision
  | indexOutOfBounds
  | nameError
  | degenerateSegment
  deriving DecidableEq, Repr

/-- Embedding of interpolate_z (source lines 66-92):
z_start + (z_end - z_start) * (d_target - d_start) / (d_end - d_start).
Python raises ZeroDivisionError when d_end - d_start == 0, modelled by the
error case. -/
def interpolate_z (d_target d_start d_end z_start z_end : ℚ) :
    Except InterpError ℚ :=
  if d_end - d_start = 0 then .error .zeroDivision
  else .ok (z_start + (z_end - z_start) * (d_target - d_start) / (d_end - d_start))

/-- Index of the first item different from invalid_item, scanning from the
front (source lines 119-126; the two Python branches both compute the first
index holding a non-invalid element).  none models the all-invalid case in
which the Python loop assigns nothing. -/
def idx_first_valid (l : List ℚ) (inv : ℚ) : Option ℕ :=
  match l with
  | [] => none
  | x :: xs => if x ≠ inv then some 0 else (idx_first_valid xs inv).map (· + 1)

/-- Index of the last item different from invalid_item, scanning the reversed
list and mapping the position back via len - idx - 1 (source lines 127-134). -/
def idx_last_valid (l : List ℚ) (inv : ℚ) : Option ℕ :=
  (idx_first_valid l.reverse inv).map (fun i => l.length - i - 1)

/-- Embedding of idx_first_last_valid_items (source lines 95-135).  none
models the Python NameError raised on a list with no valid item (the caller
fill_list_ends never reaches that case). -/
def idx_first_last_valid_items (l : List ℚ) (inv : ℚ) : Option (ℕ × ℕ) :=
  match idx_first_valid l inv, idx_last_valid l inv with
  | some f, some g => some (f, g)
  | _, _ => none

/-- Embedding of fill_list_ends (source lines 138-179).  Option.none models
the Python return value None on an all-invalid list.  The filled list applies
the two sequential Python assignments (first the i < first rule, then the
i > last rule, the latter winning when both fire) at every index of
range(len(list_)). -/
def fill_list_ends (l : List ℚ) (inv : ℚ) : Option (List ℚ × ℕ) :=
  if ∀ e ∈ l, e = inv then none
  else if inv ∉ l then some (l, 0)
  else
    match idx_first_last_valid_items l inv with
    | none => none
    | some (f, g) =>
      some ((List.range l.length).map (fun i =>
        if g < i then l.getD g 0
        else if i < f then l.getD f 0
        else l.getD i 0),
        l.length - g - 1 + f)

/-- Specification-side predicate: f is the index of the first element of l
different from inv. -/
abbrev FirstValidAt (l : List ℚ) (inv : ℚ) (f : ℕ) : Prop :=
  f < l.length ∧ l.getD f 0 ≠ inv ∧ ∀ j, j < f → l.getD j 0 = inv

/-- Specification-side predicate: g is the index of the last element of l
different from inv. -/
abbrev LastValidAt (l : List ℚ) (inv : ℚ) (g : ℕ) : Prop :=
  g < l.length ∧ l.getD g 0 ≠ inv ∧ ∀ j, j < l.length → g < j → l.getD j 0 = inv

theorem idx_first_valid_spec (l : List ℚ) (inv : ℚ)
    (h : ∃ x ∈ l, x ≠ inv) :
    ∃ f, idx_first_valid l inv = some f ∧ FirstValidAt l inv f := by
  induction l with
  | nil => simp at h
  | cons x xs ih =>
    by_cases hx : x ≠ inv
    · refine ⟨0, ?_, ?_, ?_, ?_⟩
      · simp [idx_first_valid, hx]
      · simp
      · simpa using hx
      · intro j hj; omega
    · push_neg at hx
      subst hx
      obtain ⟨y, hy, hyne⟩ := h
      rcases List.mem_cons.mp hy with rfl | hy'
      · exact absurd rfl hyne
      · obtain ⟨f, hf, hflt, hfne, hfall⟩ := ih ⟨y, hy', hyne⟩
        refine ⟨f + 1, ?_, ?_, ?_, ?_⟩
        · simp [idx_first_valid, hf]
        · simpa using hflt
        · simpa [List.getD_cons_succ] using hfne
        · intro j hj
          cases j with
          | zero => simp
          | succ j' => simpa [List.getD_cons_succ] using hfall j' (by omega)

theorem getD_reverse (l : List ℚ) (j : ℕ) (h : j < l.length) :
    l.reverse.getD j 0 = l.getD (l.length - 1 - j) 0 := by
  rw [List.getD_eq_getElem?_getD, List.getD_eq_getElem?_getD]
  rw [List.getElem?_eq_getElem (by simpa using h),
    List.getElem?_eq_getElem (by omega)]
  simp [List.getElem_reverse]

theorem idx_last_valid_spec (l : List ℚ) (inv : ℚ)
    (h : ∃ x ∈ l, x ≠ inv) :
    ∃ g, idx_last_valid l inv = some g ∧ LastValidAt l inv g := by
  have hrev : ∃ x ∈ l.reverse, x ≠ inv := by
    obtain ⟨y, hy, hyne⟩ := h
    exact ⟨y, List.mem_reverse.mpr hy, hyne⟩
  obtain ⟨f, hf, hflt, hfne, hfall⟩ := idx_first_valid_spec l.reverse inv hrev
  have hlen : f < l.length := by simpa using hflt
  refine ⟨l.length - f - 1, ?_, by omega, ?_, ?_⟩
  · simp [idx_last_valid, hf]
  · have := getD_reverse l f hlen
    rw [this] at hfne
    have : l.length - 1 - f = l.length - f - 1 := by omega
    rwa [this] at hfne
  · intro j hj hgj
    have hj' : l.length - 1 - j < f := by omega
    have := hfall (l.length - 1 - j) hj'
    rw [getD_reverse l (l.length - 1 - j) (by omega)] at this
    have heq : l.length - 1 - (l.length - 1 - j) = j := by omega
    rwa [heq] at this

theorem firstValidAt_unique {l : List ℚ} {inv : ℚ} {f f' : ℕ}
    (h1 : FirstValidAt l inv f) (h2 : FirstValidAt l inv f') : f = f' := by
  rcases lt_trichotomy f f' with h | h | h
  · exact absurd (h2.2.2 f h) h1.2.1
  · exact h
  · exact absurd (h1.2.2 f' h) h2.2.1

theorem lastValidAt_unique {l : List ℚ} {inv : ℚ} {g g' : ℕ}
    (h1 : LastValidAt l inv g) (h2 : LastValidAt l inv g') : g = g' := by
  rcases lt_trichotomy g g' with h | h | h
  · exact absurd (h1.2.2 g' h2.1 h) h2.2.1
  · exact h
  · exact absurd (h2.2.2 g h1.1 h) h1.2.1

theorem firstValidAt_le_lastValidAt {l : List ℚ} {inv : ℚ} {f g : ℕ}
    (h1 : FirstValidAt l inv f) (h2 : LastValidAt l inv g) : f ≤ g := by
  by_contra h
  exact h2.2.1 (h1.2.2 g (by omega))

theorem getD_mem {l : List ℚ} {i : ℕ} (h : i < l.length) : l.getD i 0 ∈ l := by
  rw [List.getD_eq_getElem _ _ h]
  exact List.getElem_mem h

theorem getD_range_map (n : ℕ) (fn : ℕ → ℚ) (i : ℕ) (h : i < n) :
    ((List.range n).map fn).getD i 0 = fn i := by
  rw [List.getD_eq_getElem _ _ (by simpa using h)]
  simp

theorem range_map_getD_self (l : List ℚ) :
    (List.range l.length).map (fun i => l.getD i 0) = l := by
  apply List.ext_getElem (by simp)
  intro i h1 h2
  simp only [List.getElem_map, List.getElem_range]
  rw [List.getD_eq_getElem _ _ h2]

/-- Case analysis for a successful call of fill_list_ends: either the input
had no invalid item and is returned unchanged with count zero, or the filled
list and the count are built from the first and last valid indices. -/
theorem fill_list_ends_cases {l : List ℚ} {inv : ℚ} {out : List ℚ} {c : ℕ}
    (h : fill_list_ends l inv = some (out, c)) :
    (∃ x ∈ l, x ≠ inv) ∧
    ((inv ∉ l ∧ out = l ∧ c = 0) ∨
      (inv ∈ l ∧ ∃ f g, FirstValidAt l inv f ∧ LastValidAt l inv g ∧
        out = (List.range l.length).map (fun i =>
          if g < i then l.getD g 0 else if i < f then l.getD f 0 else l.getD i 0) ∧
        c = l.length - g - 1 + f)) := by
  rw [fill_list_ends] at h
  split at h
  · exact absurd h (by simp)
  · rename_i hall
    push_neg at hall
    obtain ⟨x, hx, hxne⟩ := hall
    refine ⟨⟨x, hx, hxne⟩, ?_⟩
    split at h
    · rename_i hnmem
      rw [Option.some_inj] at h
      exact Or.inl ⟨hnmem, congrArg Prod.fst h.symm, congrArg Prod.snd h.symm⟩
    · rename_i hmem
      rw [not_not] at hmem
      obtain ⟨f, hf, hfat⟩ := idx_first_valid_spec l inv ⟨x, hx, hxne⟩
      obtain ⟨g, hg, hgat⟩ := idx_last_valid_spec l inv ⟨x, hx, hxne⟩
      rw [idx_first_last_valid_items, hf, hg, Option.some_inj] at h
      exact Or.inr ⟨hmem, f, g, hfat, hgat,
        congrArg Prod.fst h.symm, congrArg Prod.snd h.symm⟩

/-- On success the output is nonempty, has the input's length, and holds a
valid (non-sentinel) value at both ends. -/
theorem fill_ends_valid_ends {l : List ℚ} {inv : ℚ} {out : List ℚ} {c : ℕ}
    (h : fill_list_ends l inv = some (out, c)) :
    out ≠ [] ∧ out.length = l.length ∧ out.getD 0 0 ≠ inv ∧
      out.getD (out.length - 1) 0 ≠ inv := by
  obtain ⟨⟨x, hx, hxne⟩, hcase⟩ := fill_list_ends_cases h
  have hlpos : 0 < l.length := List.length_pos.mpr (List.ne_nil_of_mem hx)
  rcases hcase with ⟨hnmem, rfl, _⟩ | ⟨hmem, f, g, hfat, hgat, rfl, _⟩
  · refine ⟨List.ne_nil_of_mem hx, rfl, ?_, ?_⟩
    · exact fun hc => hnmem (hc ▸ getD_mem hlpos)
    · exact fun hc => hnmem (hc ▸ getD_mem (by omega))
  · have hlen : ((List.range l.length).map (fun i =>
        if g < i then l.getD g 0 else if i < f then l.getD f 0
        else l.getD i 0)).length = l.length := by simp
    have hfg : f ≤ g := firstValidAt_le_lastValidAt hfat hgat
    refine ⟨?_, hlen, ?_, ?_⟩
    · intro hc
      rw [hc] at hlen
      simp at hlen
      omega
    · rw [getD_range_map _ _ 0 hlpos]
      rw [if_neg (by omega)]
      by_cases h0f : 0 < f
      · rw [if_pos h0f]; exact hfat.2.1
      · rw [if_neg h0f]
        have : f = 0 := by omega
        rw [← this]; exact hfat.2.1
    · rw [hlen, getD_range_map _ _ (l.length - 1) (by omega)]
      by_cases hgl : g < l.length - 1
      · rw [if_pos hgl]; exact hgat.2.1
      · rw [if_neg hgl]
        have hgeq : g = l.length - 1 := by have := hgat.1; omega
        rw [if_neg (by omega)]
        rw [← hgeq]; exact hgat.2.1

theorem idx_first_valid_zero {l : List ℚ} {inv : ℚ} (hne : l ≠ [])
    (h0 : l.getD 0 0 ≠ inv) : idx_first_valid l inv = some 0 := by
  cases l with
  | nil => exact absurd rfl hne
  | cons x xs =>
    have hx : x ≠ inv := by simpa using h0
    simp [idx_first_valid, hx]

theorem idx_last_valid_last {l : List ℚ} {inv : ℚ} (hne : l ≠ [])
    (hl : l.getD (l.length - 1) 0 ≠ inv) :
    idx_last_valid l inv = some (l.length - 1) := by
  have hpos : 0 < l.length := List.length_pos.mpr hne
  have hrevne : l.reverse ≠ [] := by simpa using hne
  have hrev0 : l.reverse.getD 0 0 ≠ inv := by
    rw [getD_reverse l 0 hpos]
    simpa using hl
  rw [idx_last_valid, idx_first_valid_zero hrevne hrev0]
  simp

/-- Claim C4: for every sequence in which every element equals the sentinel,
fill_ends does not return a filled sequence but signals the all-missing
condition by returning none (the Python None). -/
theorem fill_list_ends_all_missing (l : List ℚ) (inv : ℚ)
    (h : ∀ x ∈ l, x = inv) : fill_list_ends l inv = none := by
  rw [fill_list_ends, if_pos h]

theorem fill_list_ends_all_missing_witness :
    fill_list_ends [0, 0] 0 = none :=
  fill_list_ends_all_missing [0, 0] 0 (by decide)

/-- Claim C5: for every sequence (of the data model, length at least 2) in
which no element equals the sentinel, fill_ends returns the input unchanged
together with filled_end_count = 0. -/
theorem fill_list_ends_no_missing (l : List ℚ) (inv : ℚ)
    (hN : 2 ≤ l.length) (h : ∀ x ∈ l, x ≠ inv) :
    fill_list_ends l inv = some (l, 0) := by
  have hne : l ≠ [] := by
    intro hc
    rw [hc] at hN
    simp at hN
  have hnall : ¬ ∀ e ∈ l, e = inv := by
    intro hall
    obtain ⟨x, hx⟩ := List.exists_mem_of_ne_nil l hne
    exact h x hx (hall x hx)
  have hmem : inv ∉ l := fun hm => h inv hm rfl
  rw [fill_list_ends, if_neg hnall, if_pos hmem]

theorem fill_list_ends_no_missing_witness :
    fill_list_ends [1, 1, 1] 0 = some ([1, 1, 1], 0) :=
  fill_list_ends_no_missing [1, 1, 1] 0 (by decide) (by decide)

/-- Claim C2: on a sequence of length at least two holding both a sentinel
and a non-sentinel element, fill_ends succeeds, copies the first valid value
below the first valid index, the last valid value above the last valid index,
keeps everything else, and counts (N - 1 - last) + first filled entries. -/
theorem fill_list_ends_spec (l : List ℚ) (inv : ℚ)
    ( _hN : 2 ≤ l.length) (hs : inv ∈ l) (hv : ∃ x ∈ l, x ≠ inv) :
    ∃ out cnt f g, fill_list_ends l inv = some (out, cnt) ∧
      FirstValidAt l inv f ∧ LastValidAt l inv g ∧
      out.length = l.length ∧
      (∀ i, i < l.length → out.getD i 0 =
        if i < f then l.getD f 0 else if g < i then l.getD g 0 else l.getD i 0) ∧
      cnt = l.length - 1 - g + f := by
  have hnall : ¬ ∀ e ∈ l, e = inv := by
    intro hall
    obtain ⟨x, hx, hxne⟩ := hv
    exact hxne (hall x hx)
  obtain ⟨f, hf, hfat⟩ := idx_first_valid_spec l inv hv
  obtain ⟨g, hg, hgat⟩ := idx_last_valid_spec l inv hv
  have hfg : f ≤ g := firstValidAt_le_lastValidAt hfat hgat
  refine ⟨(List.range l.length).map (fun i =>
      if g < i then l.getD g 0 else if i < f then l.getD f 0 else l.getD i 0),
    l.length - g - 1 + f, f, g, ?_, hfat, hgat, by simp, ?_, by omega⟩
  · rw [fill_list_ends, if_neg hnall, if_neg (not_not_intro hs),
      idx_first_last_valid_items, hf, hg]
  · intro i hi
    rw [getD_range_map _ _ i hi]
    split_ifs with h1 h2
    · exact absurd hfg (by omega)
    · rfl
    · rfl
    · rfl

theorem fill_list_ends_spec_witness :
    2 ≤ ([0, 0, 1, 0, 2, 0] : List ℚ).length ∧
    (∃ out cnt f g, fill_list_ends [0, 0, 1, 0, 2, 0] 0 = some (out, cnt) ∧
      FirstValidAt [0, 0, 1, 0, 2, 0] 0 f ∧ LastValidAt [0, 0, 1, 0, 2, 0] 0 g ∧
      out.length = ([0, 0, 1, 0, 2, 0] : List ℚ).length ∧
      (∀ i, i < ([0, 0, 1, 0, 2, 0] : List ℚ).length → out.getD i 0 =
        if i < f then ([0, 0, 1, 0, 2, 0] : List ℚ).getD f 0
        else if g < i then ([0, 0, 1, 0, 2, 0] : List ℚ).getD g 0
        else ([0, 0, 1, 0, 2, 0] : List ℚ).getD i 0) ∧
      cnt = ([0, 0, 1, 0, 2, 0] : List ℚ).length - 1 - g + f) :=
  ⟨by decide, fill_list_ends_spec [0, 0, 1, 0, 2, 0] 0 (by decide) (by decide)
    ⟨1, by decide, by decide⟩⟩

/-- Claim C8: whenever fill_ends succeeds, the returned sequence holds a
non-sentinel value at index 0 and at index N - 1. -/
theorem fill_list_ends_ends_not_sentinel (l : List ℚ) (inv : ℚ)
    (out : List ℚ) (c : ℕ) (h : fill_list_ends l inv = some (out, c)) :
    out.getD 0 0 ≠ inv ∧ out.getD (out.length - 1) 0 ≠ inv := by
  obtain ⟨_, _, h0, hl⟩ := fill_ends_valid_ends h
  exact ⟨h0, hl⟩

theorem fill_list_ends_ends_not_sentinel_witness :
    ([1, 1, 1, 0, 2, 2] : List ℚ).getD 0 0 ≠ 0 ∧
    ([1, 1, 1, 0, 2, 2] : List ℚ).getD (([1, 1, 1, 0, 2, 2] : List ℚ).length - 1) 0 ≠ 0 :=
  fill_list_ends_ends_not_sentinel [0, 0, 1, 0, 2, 0] 0 [1, 1, 1, 0, 2, 2] 3 (by decide)

/-- Claim C9: applying fill_ends to its own successful output (same sentinel)
succeeds again and fills nothing: the second call returns the sequence
unchanged with filled_end_count = 0. -/
theorem fill_list_ends_idempotent (l : List ℚ) (inv : ℚ)
    (out : List ℚ) (c : ℕ) (h : fill_list_ends l inv = some (out, c)) :
    fill_list_ends out inv = some (out, 0) := by
  obtain ⟨hne, hlen, h0, hlast⟩ := fill_ends_valid_ends h
  have hpos : 0 < out.length := List.length_pos.mpr hne
  have hnall : ¬ ∀ e ∈ out, e = inv := by
    intro hall
    exact h0 (hall _ (getD_mem hpos))
  by_cases hmem : inv ∈ out
  · have hf := idx_first_valid_zero hne h0
    have hg := idx_last_valid_last hne hlast
    have hfl : idx_first_last_valid_items out inv = some (0, out.length - 1) := by
      rw [idx_first_last_valid_items, hf, hg]
    rw [fill_list_ends, if_neg hnall, if_neg (not_not_intro hmem), hfl]
    show some ((List.range out.length).map (fun i =>
        if out.length - 1 < i then out.getD (out.length - 1) 0
        else if i < 0 then out.getD 0 0
        else out.getD i 0),
      out.length - (out.length - 1) - 1 + 0) = some (out, 0)
    have hmap : (List.range out.length).map (fun i =>
        if out.length - 1 < i then out.getD (out.length - 1) 0
        else if i < 0 then out.getD 0 0
        else out.getD i 0) = out := by
      conv_rhs => rw [← range_map_getD_self out]
      apply List.map_congr_left
      intro i hi
      have hilt : i < out.length := List.mem_range.mp hi
      rw [if_neg (by omega), if_neg (by omega)]
    rw [hmap]
    have hcnt : out.length - (out.length - 1) - 1 + 0 = 0 := by omega
    rw [hcnt]
  · rw [fill_list_ends, if_neg hnall, if_pos hmem]

theorem fill_list_ends_idempotent_witness :
    fill_list_ends [1, 1, 1, 0, 2, 2] 0 = some ([1, 1, 1, 0, 2, 2], 0) :=
  fill_list_ends_idempotent [0, 0, 1, 0, 2, 0] 0 [1, 1, 1, 0, 2, 2] 3 (by decide)

/-- Claim C10: every element of a successful fill_ends output already occurs
in the input sequence; end-filling never synthesizes a new value. -/
theorem fill_list_ends_values_from_input (l : List ℚ) (inv : ℚ)
    (out : List ℚ) (c : ℕ) (h : fill_list_ends l inv = some (out, c)) :
    ∀ x ∈ out, x ∈ l := by
  rcases (fill_list_ends_cases h).2 with ⟨_, rfl, _⟩ | ⟨_, f, g, hfat, hgat, rfl, _⟩
  · exact fun x hx => hx
  · intro x hx
    rw [List.mem_map] at hx
    obtain ⟨i, hi, rfl⟩ := hx
    have hilt : i < l.length := List.mem_range.mp hi
    split_ifs
    · exact getD_mem hgat.1
    · exact getD_mem hfat.1
    · exact getD_mem hilt

theorem fill_list_ends_values_from_input_witness :
    (1 : ℚ) ∈ ([0, 0, 1, 0, 2, 0] : List ℚ) :=
  fill_list_ends_values_from_input [0, 0, 1, 0, 2, 0] 0 [1, 1, 1, 0, 2, 2] 3
    (by decide) 1 (by decide)

/-- Forward scan of the interior interpolation loop (source lines 466-468):
starting at index j, advance while the value equals the sentinel.  The fuel
argument always equals values.length - j at the call sites, so running out of
fuel is exactly the Python IndexError raised when the scan steps past the
last index. -/
def scan_go (values : List ℚ) (s : ℚ) : ℕ → ℕ → Option (ℕ × ℚ)
  | 0, _ => none
  | fuel + 1, j =>
    if j < values.length then
      if values.getD j 0 = s then scan_go values s fuel (j + 1)
      else some (j, values.getD j 0)
    else none

/-- Scan forward from index j for the first non-sentinel value, returning its
index and value, or none for the Python IndexError. -/
def scan_forward (values : List ℚ) (s : ℚ) (j : ℕ) : Option (ℕ × ℚ) :=
  scan_go values s (values.length - j) j

/-- End-anchor lookup for a missing value at index i (source lines 463-471).
When the cached end index is not ahead of i, scan forward from i + 1 and read
the anchor's distance and value; otherwise reuse the cached anchor.  The
errors model the Python IndexError (scan or distance lookup past the end)
and NameError (cached anchor used though never assigned). -/
def find_end_anchor (values dist : List ℚ) (s : ℚ) (i endIdx : ℕ)
    (endA : Option (ℚ × ℚ)) : Except InterpError (ℕ × ℚ × ℚ) :=
  if endIdx ≤ i then
    match scan_forward values s (i + 1) with
    | none => .error .indexOutOfBounds
    | some (j, zj) =>
      if j < dist.length then .ok (j, dist.getD j 0, zj)
      else .error .indexOutOfBounds
  else
    match endA with
    | none => .error .nameError
    | some (dE, zE) => .ok (endIdx, dE, zE)

/-- Left-to-right pass of the interior interpolation loop of processAlgorithm
(source lines 450-477).  i is the current vertex index, startA the backward
anchor (distance, value) assigned at the last valid vertex seen (none while
unassigned, the Python NameError case), endIdx and endA the cached forward
anchor.  The loop iterates over zip(dist, base_z_values), so it runs
min values.length dist.length steps; the fuel argument equals the number of
remaining steps. -/
def interp_go (values dist : List ℚ) (s : ℚ) :
    ℕ → ℕ → Option (ℚ × ℚ) → ℕ → Option (ℚ × ℚ) → Except InterpError (List ℚ)
  | 0, _, _, _, _ => .ok []
  | fuel + 1, i, startA, endIdx, endA =>
    if i < min values.length dist.length then
      if values.getD i 0 ≠ s then
        match interp_go values dist s fuel (i + 1)
            (some (dist.getD i 0, values.getD i 0)) endIdx endA with
        | .ok rest => .ok (values.getD i 0 :: rest)
        | .error e => .error e
      else
        match find_end_anchor values dist s i endIdx endA with
        | .error e => .error e
        | .ok (j, dE, zE) =>
          match startA with
          | none => .error .nameError
          | some (dS, zS) =>
            match interpolate_z (dist.getD i 0) dS dE zS zE with
            | .error e => .error e
            | .ok nz =>
              match interp_go values dist s fuel (i + 1) startA j (some (dE, zE)) with
              | .ok rest => .ok (nz :: rest)
              | .error e => .error e
    else .ok []

/-- Full interior interpolation pass over one line (source lines 450-477):
the list new_zs on success, or the Python exception the loop would raise. -/
def interpolate (values dist : List ℚ) (s : ℚ) : Except InterpError (List ℚ) :=
  interp_go values dist s (min values.length dist.length) 0 none 0 none

instance {ε α : Type} [DecidableEq ε] [DecidableEq α] :
    DecidableEq (Except ε α) := fun a b =>
  match a, b with
  | .ok x, .ok y => if h : x = y then isTrue (by rw [h]) else isFalse (by simp [h])
  | .error e, .error f => if h : e = f then isTrue (by rw [h]) else isFalse (by simp [h])
  | .ok _, .error _ => isFalse (by simp)
  | .error _, .ok _ => isFalse (by simp)

/-- Specification-side predicate: b is the nearest non-sentinel index at or
before i (the backward anchor of the claims). -/
abbrev BackAnchorAt (values : List ℚ) (s : ℚ) (i b : ℕ) : Prop :=
  b ≤ i ∧ values.getD b 0 ≠ s ∧ ∀ j, j < i + 1 → b < j → values.getD j 0 = s

/-- Specification-side predicate: f is the nearest non-sentinel index
strictly after i (the forward anchor of the claims). -/
abbrev FwdAnchorAt (values : List ℚ) (s : ℚ) (i f : ℕ) : Prop :=
  i < f ∧ f < values.length ∧ values.getD f 0 ≠ s ∧
    ∀ j, j < f → i < j → values.getD j 0 = s

theorem backAnchorAt_unique {values : List ℚ} {s : ℚ} {i b b' : ℕ}
    (h1 : BackAnchorAt values s i b) (h2 : BackAnchorAt values s i b') :
    b = b' := by
  rcases lt_trichotomy b b' with h | h | h
  · exact absurd (h1.2.2 b' (by omega) h) h2.2.1
  · exact h
  · exact absurd (h2.2.2 b (by omega) h) h1.2.1

theorem fwdAnchorAt_unique {values : List ℚ} {s : ℚ} {i f f' : ℕ}
    (h1 : FwdAnchorAt values s i f) (h2 : FwdAnchorAt values s i f') :
    f = f' := by
  rcases lt_trichotomy f f' with h | h | h
  · exact absurd (h2.2.2.2 f h h1.1) h1.2.2.1
  · exact h
  · exact absurd (h1.2.2.2 f' h h2.1) h2.2.2.1

theorem scan_go_finds (values : List ℚ) (s : ℚ) :
    ∀ fuel j k, fuel + j = values.length → j ≤ k → k < values.length →
      values.getD k 0 ≠ s →
      ∃ f, scan_go values s fuel j = some (f, values.getD f 0) ∧ j ≤ f ∧
        f < values.length ∧ values.getD f 0 ≠ s ∧
        ∀ m, j ≤ m → m < f → values.getD m 0 = s := by
  intro fuel
  induction fuel with
  | zero =>
    intro j k h1 h2 h3 h4
    omega
  | succ fuel ih =>
    intro j k h1 h2 h3 h4
    have hj : j < values.length := by omega
    by_cases hjs : values.getD j 0 = s
    · have hjk : j ≠ k := fun hc => h4 (hc ▸ hjs)
      obtain ⟨f, hf, hjf, hflt, hfne, hall⟩ :=
        ih (j + 1) k (by omega) (by omega) h3 h4
      refine ⟨f, ?_, by omega, hflt, hfne, ?_⟩
      · simp only [scan_go]
        rw [if_pos hj, if_pos hjs]
        exact hf
      · intro m hm1 hm2
        rcases Nat.eq_or_lt_of_le hm1 with rfl | hlt
        · exact hjs
        · exact hall m (by omega) hm2
    · refine ⟨j, ?_, le_refl j, hj, hjs, fun m hm1 hm2 => by omega⟩
      simp only [scan_go]
      rw [if_pos hj, if_neg hjs]

theorem scan_forward_finds (values : List ℚ) (s : ℚ) (j k : ℕ)
    (hjk : j ≤ k) (hk : k < values.length) (hkv : values.getD k 0 ≠ s) :
    ∃ f, scan_forward values s j = some (f, values.getD f 0) ∧ j ≤ f ∧
      f < values.length ∧ values.getD f 0 ≠ s ∧
      ∀ m, j ≤ m → m < f → values.getD m 0 = s :=
  scan_go_finds values s (values.length - j) j k (by omega) hjk hk hkv

/-- Claim C7: on a values sequence whose last element is not the sentinel,
the forward-anchor scan started at i + 1 for a missing index i always finds a
non-sentinel element before running past the end of the sequence, so the
scan's indexing never goes out of bounds (it returns an index rather than the
IndexError case). -/
theorem scan_forward_in_bounds (values : List ℚ) (s : ℚ) (i : ℕ)
    (hlast : values.getD (values.length - 1) 0 ≠ s)
    (hi : i < values.length) (hmiss : values.getD i 0 = s) :
    ∃ f, scan_forward values s (i + 1) = some (f, values.getD f 0) ∧
      i + 1 ≤ f ∧ f < values.length ∧ values.getD f 0 ≠ s := by
  have hine : i ≠ values.length - 1 := by
    intro hc
    rw [hc] at hmiss
    exact hlast hmiss
  obtain ⟨f, h1, h2, h3, h4, _⟩ :=
    scan_forward_finds values s (i + 1) (values.length - 1) (by omega) (by omega) hlast
  exact ⟨f, h1, h2, h3, h4⟩

theorem scan_forward_in_bounds_witness :
    ∃ f, scan_forward [1, 0, 2] 0 (1 + 1) = some (f, ([1, 0, 2] : List ℚ).getD f 0) ∧
      1 + 1 ≤ f ∧ f < ([1, 0, 2] : List ℚ).length ∧ ([1, 0, 2] : List ℚ).getD f 0 ≠ 0 :=
  scan_forward_in_bounds [1, 0, 2] 0 1 (by decide) (by decide) (by decide)

theorem interp_go_length (values dist : List ℚ) (s : ℚ) :
    ∀ fuel i startA endIdx endA out,
      interp_go values dist s fuel i startA endIdx endA = .ok out →
      out.length = min fuel (min values.length dist.length - i) := by
  intro fuel
  induction fuel with
  | zero =>
    intro i startA endIdx endA out h
    simp only [interp_go] at h
    obtain rfl : ([] : List ℚ) = out := by simpa using h
    simp
  | succ fuel ih =>
    intro i startA endIdx endA out h
    simp only [interp_go] at h
    by_cases hlt : i < min values.length dist.length
    · rw [if_pos hlt] at h
      by_cases hz : values.getD i 0 ≠ s
      · rw [if_pos hz] at h
        split at h
        · rename_i rest hrec
          obtain rfl : values.getD i 0 :: rest = out := by simpa using h
          have hr := ih (i + 1) _ endIdx endA rest hrec
          simp only [List.length_cons, hr]
          omega
        · simp at h
      · rw [if_neg hz] at h
        split at h
        · simp at h
        · rename_i j dE zE hfe
          split at h
          · simp at h
          · rename_i dS zS
            split at h
            · simp at h
            · rename_i nz hiz
              split at h
              · rename_i rest hrec
                obtain rfl : nz :: rest = out := by simpa using h
                have hr := ih (i + 1) _ j (some (dE, zE)) rest hrec
                simp only [List.length_cons, hr]
                omega
              · simp at h
    · rw [if_neg hlt] at h
      obtain rfl : ([] : List ℚ) = out := by simpa using h
      simp only [List.length_nil]
      omega

/-- Claim C6: for every valid input, both stages preserve the sequence
length: a successful fill_list_ends returns a list of the input's length,
and a successful interior interpolation pass over equal-length values and
distances returns a list of the input's length. -/
theorem stages_preserve_length :
    (∀ (l : List ℚ) (inv : ℚ) (out : List ℚ) (c : ℕ),
      fill_list_ends l inv = some (out, c) → out.length = l.length) ∧
    (∀ (values dist : List ℚ) (s : ℚ) (out : List ℚ),
      dist.length = values.length → interpolate values dist s = .ok out →
      out.length = values.length) := by
  constructor
  · intro l inv out c h
    exact (fill_ends_valid_ends h).2.1
  · intro values dist s out hlen h
    have hr := interp_go_length values dist s
      (min values.length dist.length) 0 none 0 none out h
    rw [hlen] at hr
    simpa using hr

theorem stages_preserve_length_witness :
    ([1, 1, 1, 0, 2, 2] : List ℚ).length = ([0, 0, 1, 0, 2, 0] : List ℚ).length ∧
    ([5, 25/3, 35/3, 15, 20, 25] : List ℚ).length = ([5, 0, 0, 15, 0, 25] : List ℚ).length :=
  ⟨stages_preserve_length.1 [0, 0, 1, 0, 2, 0] 0 [1, 1, 1, 0, 2, 2] 3 (by decide),
    stages_preserve_length.2 [5, 0, 0, 15, 0, 25] [0, 1, 2, 3, 4, 5] 0
      [5, 25/3, 35/3, 15, 20, 25] (by decide)
      (by norm_num [interpolate, interp_go, find_end_anchor, scan_forward,
        scan_go, interpolate_z])⟩

theorem find_end_anchor_ne_degenerate (values dist : List ℚ) (s : ℚ)
    (i endIdx : ℕ) (endA : Option (ℚ × ℚ)) :
    find_end_anchor values dist s i endIdx endA ≠ .error .degenerateSegment := by
  unfold find_end_anchor
  split
  · split
    · simp
    · split <;> simp
  · split <;> simp

theorem interpolate_z_ne_degenerate (d_target d_start d_end z_start z_end : ℚ) :
    interpolate_z d_target d_start d_end z_start z_end ≠ .error .degenerateSegment := by
  unfold interpolate_z
  split <;> simp

theorem interp_go_ne_degenerate (values dist : List ℚ) (s : ℚ) :
    ∀ fuel i startA endIdx endA,
      interp_go values dist s fuel i startA endIdx endA ≠
        .error .degenerateSegment := by
  intro fuel
  induction fuel with
  | zero =>
    intro i startA endIdx endA
    simp [interp_go]
  | succ fuel ih =>
    intro i startA endIdx endA
    simp only [interp_go]
    split
    · split
      · split
        · simp
        · rename_i e heq
          intro hc
          rw [Except.error.injEq] at hc
          rw [hc] at heq
          exact ih _ _ _ _ heq
      · split
        · rename_i e heq
          intro hc
          rw [Except.error.injEq] at hc
          rw [hc] at heq
          exact find_end_anchor_ne_degenerate values dist s i endIdx endA heq
        · rename_i j dE zE heq
          split
          · simp
          · rename_i dS zS
            split
            · rename_i e hiz
              intro hc
              rw [Except.error.injEq] at hc
              rw [hc] at hiz
              exact interpolate_z_ne_degenerate _ _ _ _ _ hiz
            · rename_i nz hiz
              split
              · simp
              · rename_i e hrec
                intro hc
                rw [Except.error.injEq] at hc
                rw [hc] at hrec
                exact ih _ _ _ _ hrec
    · simp

theorem interp_go_valid_step (values dist : List ℚ) (s : ℚ) (fuel i : ℕ)
    (startA : Option (ℚ × ℚ)) (endIdx : ℕ) (endA : Option (ℚ × ℚ))
    (rest : List ℚ)
    (hlt : i < min values.length dist.length)
    (hz : values.getD i 0 ≠ s)
    (hrec : interp_go values dist s fuel (i + 1)
      (some (dist.getD i 0, values.getD i 0)) endIdx endA = .ok rest) :
    interp_go values dist s (fuel + 1) i startA endIdx endA =
      .ok (values.getD i 0 :: rest) := by
  simp only [interp_go]
  rw [if_pos hlt, if_pos hz]
  simp only [hrec]

theorem interp_go_missing_step (values dist : List ℚ) (s : ℚ) (fuel i : ℕ)
    (dS zS : ℚ) (endIdx : ℕ) (endA : Option (ℚ × ℚ))
    (f : ℕ) (dE zE nz : ℚ) (rest : List ℚ)
    (hlt : i < min values.length dist.length)
    (hz : values.getD i 0 = s)
    (hfe : find_end_anchor values dist s i endIdx endA = .ok (f, dE, zE))
    (hiz : interpolate_z (dist.getD i 0) dS dE zS zE = .ok nz)
    (hrec : interp_go values dist s fuel (i + 1) (some (dS, zS)) f
      (some (dE, zE)) = .ok rest) :
    interp_go values dist s (fuel + 1) i (some (dS, zS)) endIdx endA =
      .ok (nz :: rest) := by
  simp only [interp_go]
  rw [if_pos hlt, if_neg (not_not_intro hz)]
  simp only [hfe, hiz, hrec]

/-- Loop invariant of the interior interpolation pass: starting at index
i ≥ 1 with the backward anchor of the processed prefix in startA and a
coherent cached forward anchor, the loop succeeds (given the non-degeneracy
of anchor distances) and every produced entry is either the unchanged valid
value or the two-anchor linear interpolation evaluated at its distance. -/
theorem interp_go_spec (values dist : List ℚ) (s : ℚ)
    (hlen : dist.length = values.length)
    (hlast : values.getD (values.length - 1) 0 ≠ s)
    (hnd : ∀ i, i < values.length → ∀ b, b < values.length →
      ∀ f, f < values.length → values.getD i 0 = s →
      BackAnchorAt values s i b → FwdAnchorAt values s i f →
      dist.getD b 0 ≠ dist.getD f 0) :
    ∀ fuel i b endIdx endA,
      fuel + i = values.length → 1 ≤ i →
      BackAnchorAt values s (i - 1) b →
      (endIdx ≤ i ∨ (endIdx < values.length ∧ values.getD endIdx 0 ≠ s ∧
        endA = some (dist.getD endIdx 0, values.getD endIdx 0) ∧
        ∀ j, j < endIdx → i ≤ j → values.getD j 0 = s)) →
      ∃ out, interp_go values dist s fuel i
          (some (dist.getD b 0, values.getD b 0)) endIdx endA = .ok out ∧
        out.length = fuel ∧
        ∀ k, k < fuel →
          (values.getD (i + k) 0 ≠ s → out.getD k 0 = values.getD (i + k) 0) ∧
          (values.getD (i + k) 0 = s →
            ∀ b' f', BackAnchorAt values s (i + k) b' →
              FwdAnchorAt values s (i + k) f' →
              out.getD k 0 = values.getD b' 0 +
                (values.getD f' 0 - values.getD b' 0) *
                (dist.getD (i + k) 0 - dist.getD b' 0) /
                (dist.getD f' 0 - dist.getD b' 0)) := by
  intro fuel
  induction fuel with
  | zero =>
    intro i b endIdx endA hfuel hi hback hend
    refine ⟨[], by simp [interp_go], rfl, ?_⟩
    intro k hk
    omega
  | succ fuel ih =>
    intro i b endIdx endA hfuel hi hback hend
    have hilt : i < values.length := by omega
    have hltmin : i < min values.length dist.length := by omega
    have hblt : b < values.length := by
      have := hback.1
      omega
    by_cases hz : values.getD i 0 = s
    · -- the value at index i is missing
      have hbArr : BackAnchorAt values s i b := by
        refine ⟨by have := hback.1; omega, hback.2.1, ?_⟩
        intro j hj1 hj2
        rcases Nat.lt_or_ge j i with hji | hji
        · exact hback.2.2 j (by omega) hj2
        · have hj : j = i := by omega
          rw [hj]
          exact hz
      have hfind : ∃ f, find_end_anchor values dist s i endIdx endA =
          .ok (f, dist.getD f 0, values.getD f 0) ∧ FwdAnchorAt values s i f ∧
          ∀ j, j < f → i + 1 ≤ j → values.getD j 0 = s := by
        by_cases hei : endIdx ≤ i
        · have hine : i ≠ values.length - 1 := fun hc => hlast (hc ▸ hz)
          obtain ⟨f, hscan, hf1, hf2, hf3, hfall⟩ :=
            scan_forward_finds values s (i + 1) (values.length - 1)
              (by omega) (by omega) hlast
          refine ⟨f, ?_, ⟨by omega, hf2, hf3,
            fun j hj1 hj2 => hfall j (by omega) hj1⟩,
            fun j hj1 hj2 => hfall j hj2 hj1⟩
          unfold find_end_anchor
          rw [if_pos hei, hscan]
          show (if f < dist.length then
              Except.ok (f, dist.getD f 0, values.getD f 0)
            else Except.error InterpError.indexOutOfBounds) =
            Except.ok (f, dist.getD f 0, values.getD f 0)
          rw [if_pos (by omega)]
        · push_neg at hei
          rcases hend with hend | ⟨helt, hene, heq, hejs⟩
          · omega
          · refine ⟨endIdx, ?_, ⟨hei, helt, hene,
              fun j hj1 hj2 => hejs j hj1 (by omega)⟩,
              fun j hj1 hj2 => hejs j hj1 (by omega)⟩
            unfold find_end_anchor
            rw [if_neg (by omega), heq]
      obtain ⟨f, hfe, hfAt, hgap⟩ := hfind
      have hflt : f < values.length := hfAt.2.1
      have hndi : dist.getD b 0 ≠ dist.getD f 0 :=
        hnd i hilt b hblt f hflt hz hbArr hfAt
      have hsub : dist.getD f 0 - dist.getD b 0 ≠ 0 := by
        intro hc
        exact hndi (by linarith)
      have hiz : interpolate_z (dist.getD i 0) (dist.getD b 0) (dist.getD f 0)
          (values.getD b 0) (values.getD f 0) =
          .ok (values.getD b 0 + (values.getD f 0 - values.getD b 0) *
            (dist.getD i 0 - dist.getD b 0) / (dist.getD f 0 - dist.getD b 0)) := by
        unfold interpolate_z
        rw [if_neg hsub]
      have hbackNext : BackAnchorAt values s (i + 1 - 1) b := by
        simpa using hbArr
      obtain ⟨rest, hrec, hrlen, hrprop⟩ := ih (i + 1) b f
        (some (dist.getD f 0, values.getD f 0)) (by omega) (by omega) hbackNext
        (Or.inr ⟨hflt, hfAt.2.2.1, rfl, hgap⟩)
      refine ⟨_, interp_go_missing_step values dist s fuel i (dist.getD b 0)
        (values.getD b 0) endIdx endA f (dist.getD f 0) (values.getD f 0) _ rest
        hltmin hz hfe hiz hrec, by simp [List.length_cons, hrlen], ?_⟩
      intro k hk
      cases k with
      | zero =>
        constructor
        · intro hvk
          exact absurd hz (by simpa using hvk)
        · intro _ b' f' hb' hf'
          have hbb : b' = b :=
            backAnchorAt_unique hb' (show BackAnchorAt values s (i + 0) b by
              simpa using hbArr)
          have hff : f' = f :=
            fwdAnchorAt_unique hf' (show FwdAnchorAt values s (i + 0) f by
              simpa using hfAt)
          rw [hbb, hff]
          simp
      | succ k' =>
        have hk' : k' < fuel := by omega
        have hidx : i + 1 + k' = i + (k' + 1) := by omega
        have hstep := hrprop k' hk'
        rw [hidx] at hstep
        constructor
        · intro hvk
          rw [List.getD_cons_succ]
          exact hstep.1 hvk
        · intro hvk b' f' hb' hf'
          rw [List.getD_cons_succ]
          exact hstep.2 hvk b' f' hb' hf'
    · -- the value at index i is valid
      have hbackNext : BackAnchorAt values s (i + 1 - 1) i := by
        refine ⟨by omega, hz, ?_⟩
        intro j hj1 hj2
        omega
      have hendNext : endIdx ≤ i + 1 ∨ (endIdx < values.length ∧
          values.getD endIdx 0 ≠ s ∧
          endA = some (dist.getD endIdx 0, values.getD endIdx 0) ∧
          ∀ j, j < endIdx → i + 1 ≤ j → values.getD j 0 = s) := by
        rcases hend with hle | ⟨helt, hene, heq, hejs⟩
        · exact Or.inl (by omega)
        · rcases Nat.lt_or_ge i endIdx with hlt2 | hge
          · exact absurd (hejs i hlt2 (le_refl i)) hz
          · exact Or.inl (by omega)
      obtain ⟨rest, hrec, hrlen, hrprop⟩ := ih (i + 1) i endIdx endA
        (by omega) (by omega) hbackNext hendNext
      refine ⟨_, interp_go_valid_step values dist s fuel i
        (some (dist.getD b 0, values.getD b 0)) endIdx endA rest hltmin hz hrec,
        by simp [List.length_cons, hrlen], ?_⟩
      intro k hk
      cases k with
      | zero =>
        constructor
        · intro hvk
          simp
        · intro hvk b' f' hb' hf'
          exact absurd (show values.getD i 0 = s by simpa using hvk) hz
      | succ k' =>
        have hk' : k' < fuel := by omega
        have hidx : i + 1 + k' = i + (k' + 1) := by omega
        have hstep := hrprop k' hk'
        rw [hidx] at hstep
        constructor
        · intro hvk
          rw [List.getD_cons_succ]
          exact hstep.1 hvk
        · intro hvk b' f' hb' hf'
          rw [List.getD_cons_succ]
          exact hstep.2 hvk b' f' hb' hf'

/-- Claim C1 (amended): on a values sequence of length at least 2 whose first
and last entries are valid and a same-length distance sequence, and provided
that at every sentinel index the backward and forward anchor distances
differ (otherwise the pass raises a division-by-zero error, see the
counterexample), the interior interpolator returns a sequence of the same
length that keeps every non-sentinel entry unchanged and replaces every
sentinel entry at index i by
backward.value + (forward.value - backward.value) *
(distances[i] - backward.distance) / (forward.distance - backward.distance),
the backward anchor being the nearest non-sentinel entry at or before i and
the forward anchor the nearest non-sentinel entry after i. -/
theorem interpolate_spec (values dist : List ℚ) (s : ℚ)
    (hN : 2 ≤ values.length)
    (hlen : dist.length = values.length)
    (h0 : values.getD 0 0 ≠ s)
    (hlast : values.getD (values.length - 1) 0 ≠ s)
    (hnd : ∀ i, i < values.length → ∀ b, b < values.length →
      ∀ f, f < values.length → values.getD i 0 = s →
      BackAnchorAt values s i b → FwdAnchorAt values s i f →
      dist.getD b 0 ≠ dist.getD f 0) :
    ∃ out, interpolate values dist s = .ok out ∧
      out.length = values.length ∧
      (∀ i, i < values.length → values.getD i 0 ≠ s →
        out.getD i 0 = values.getD i 0) ∧
      (∀ i b f, i < values.length → values.getD i 0 = s →
        BackAnchorAt values s i b → FwdAnchorAt values s i f →
        out.getD i 0 = values.getD b 0 + (values.getD f 0 - values.getD b 0) *
          (dist.getD i 0 - dist.getD b 0) / (dist.getD f 0 - dist.getD b 0)) := by
  have hback0 : BackAnchorAt values s (1 - 1) 0 := by
    refine ⟨by omega, h0, ?_⟩
    intro j hj1 hj2
    omega
  obtain ⟨rest, hrec, hrlen, hrprop⟩ := interp_go_spec values dist s hlen hlast hnd
    (values.length - 1) 1 0 0 none (by omega) (by omega) hback0 (Or.inl (by omega))
  refine ⟨values.getD 0 0 :: rest, ?_,
    by simp only [List.length_cons, hrlen]; omega, ?_, ?_⟩
  · unfold interpolate
    have hmin : min values.length dist.length = values.length := by omega
    rw [hmin]
    have hfs : values.length = (values.length - 1) + 1 := by omega
    rw [hfs]
    exact interp_go_valid_step values dist s (values.length - 1) 0 none 0 none
      rest (by omega) h0 hrec
  · intro i hilt hvi
    cases i with
    | zero => simp
    | succ k =>
      have hk : k < values.length - 1 := by omega
      have hp := (hrprop k hk).1
      have hik : 1 + k = k + 1 := by omega
      rw [hik] at hp
      rw [List.getD_cons_succ]
      exact hp hvi
  · intro i b f hilt hvi hb hf
    cases i with
    | zero => exact absurd hvi h0
    | succ k =>
      have hk : k < values.length - 1 := by omega
      have hp := (hrprop k hk).2
      have hik : 1 + k = k + 1 := by omega
      rw [hik] at hp
      rw [List.getD_cons_succ]
      exact hp hvi b f hb hf

theorem interpolate_spec_witness :
    2 ≤ ([5, 0, 0, 15, 0, 25] : List ℚ).length ∧
    (∃ out, interpolate [5, 0, 0, 15, 0, 25] [0, 1, 2, 3, 4, 5] 0 = .ok out ∧
      out.length = ([5, 0, 0, 15, 0, 25] : List ℚ).length ∧
      (∀ i, i < ([5, 0, 0, 15, 0, 25] : List ℚ).length →
        ([5, 0, 0, 15, 0, 25] : List ℚ).getD i 0 ≠ 0 →
        out.getD i 0 = ([5, 0, 0, 15, 0, 25] : List ℚ).getD i 0) ∧
      (∀ i b f, i < ([5, 0, 0, 15, 0, 25] : List ℚ).length →
        ([5, 0, 0, 15, 0, 25] : List ℚ).getD i 0 = 0 →
        BackAnchorAt [5, 0, 0, 15, 0, 25] 0 i b →
        FwdAnchorAt [5, 0, 0, 15, 0, 25] 0 i f →
        out.getD i 0 = ([5, 0, 0, 15, 0, 25] : List ℚ).getD b 0 +
          (([5, 0, 0, 15, 0, 25] : List ℚ).getD f 0 -
            ([5, 0, 0, 15, 0, 25] : List ℚ).getD b 0) *
          (([0, 1, 2, 3, 4, 5] : List ℚ).getD i 0 -
            ([0, 1, 2, 3, 4, 5] : List ℚ).getD b 0) /
          (([0, 1, 2, 3, 4, 5] : List ℚ).getD f 0 -
            ([0, 1, 2, 3, 4, 5] : List ℚ).getD b 0))) :=
  ⟨by decide, interpolate_spec [5, 0, 0, 15, 0, 25] [0, 1, 2, 3, 4, 5] 0
    (by decide) (by decide) (by decide) (by decide)
    (by
      intro i hi b hb f hf hzi hbA hfA
      have hi6 : i < 6 := by simpa using hi
      have hb6 : b < 6 := by simpa using hb
      have hf6 : f < 6 := by simpa using hf
      clear hi hb hf
      interval_cases i <;> interval_cases b <;> interval_cases f <;>
        revert hzi hbA hfA <;> decide)⟩

/-- Claim C1 (counterexample): the values [3, 0, 7] with distances [0, 0, 0]
and sentinel 0 satisfy every precondition of the claim (length at least 2,
valid first and last values, equal lengths), yet the interior interpolator
returns no sequence at all: the sentinel index 1 has coincident anchor
distances and the pass fails with the division-by-zero error. -/
theorem interp_formula_fails_on_coincident_distances :
    interpolate [3, 0, 7] [0, 0, 0] 0 = .error .zeroDivision ∧
    2 ≤ ([3, 0, 7] : List ℚ).length ∧
    ([3, 0, 7] : List ℚ).getD 0 0 ≠ 0 ∧
    ([3, 0, 7] : List ℚ).getD (([3, 0, 7] : List ℚ).length - 1) 0 ≠ 0 ∧
    ([0, 0, 0] : List ℚ).length = ([3, 0, 7] : List ℚ).length := by
  refine ⟨?_, by decide, by decide, by decide, by decide⟩
  norm_num [interpolate, interp_go, find_end_anchor, scan_forward, scan_go,
    interpolate_z]

/-- Claim C3 (counterexample): at values [1, 0, 2] with distances [0, 0, 0]
and sentinel 0, the missing index 1 has backward and forward anchors with
equal distances, and the interpolator fails with the plain zeroDivision case
(the uncaught Python ZeroDivisionError), which is distinct from the
degenerateSegment report the claim asserts. -/
theorem degenerate_not_reported :
    interpolate [1, 0, 2] [0, 0, 0] 0 = .error .zeroDivision ∧
    InterpError.zeroDivision ≠ InterpError.degenerateSegment := by
  constructor
  · norm_num [interpolate, interp_go, find_end_anchor, scan_forward, scan_go,
      interpolate_z]
  · decide

/-- Claim C3 (amended): when the forward and backward anchor distances
coincide, the interpolation step fails with a plain division-by-zero error
(the uncaught Python ZeroDivisionError) rather than silently producing a
NaN or infinite value, and the interior interpolator never reports the
distinct degenerateSegment failure on any input (no such report exists in
the code). -/
theorem degenerate_is_zero_division :
    (∀ d_target d_start z_start z_end : ℚ,
      interpolate_z d_target d_start d_start z_start z_end =
        .error .zeroDivision) ∧
    (∀ (values dist : List ℚ) (s : ℚ),
      interpolate values dist s ≠ .error .degenerateSegment) := by
  constructor
  · intro d_target d_start z_start z_end
    unfold interpolate_z
    rw [if_pos (sub_self d_start)]
  · intro values dist s
    exact interp_go_ne_degenerate values dist s _ 0 none 0 none

theorem degenerate_is_zero_division_witness :
    interpolate_z 1 2 2 5 9 = .error .zeroDivision ∧
    interpolate [1, 0, 2] [0, 1, 2] 0 ≠ .error .degenerateSegment :=
  ⟨degenerate_is_zero_division.1 1 2 5 9,
    degenerate_is_zero_division.2 [1, 0, 2] [0, 1, 2] 0⟩
